import Mathlib

/-!
# Verification of shlex.h

A shallow embedding of the single-header C library `shlex.h`: a POSIX-shell-aware
tokenizer (`shlex_next`) and a quoting string builder
(`shlex_append_quoted_sized` / `shlex_join`) sharing one growable byte buffer.

Bytes are modelled as `Nat` (the C `char` values, 0..255).  The source range
`[source, source_end)` is a `List Nat`; the cursor `point` is an index into it.
The growable string storage is modelled by the list of bytes written so far
(`string`, the high-water region), the logical length `string_count`, and the
allocated capacity `string_capacity`.  All definitions below are direct
translations of the corresponding C functions.
-/

/-- C `isspace` in the C locale on bytes: space (32) and 9..13 (TAB, LF, VT, FF, CR). -/
def isspace (c : Nat) : Bool :=
  c == 32 || (decide (9 ≤ c) && decide (c ≤ 13))

/-- C `isalnum` in the C locale on bytes: digits 48..57, uppercase 65..90, lowercase 97..122. -/
def isalnum (c : Nat) : Bool :=
  (decide (48 ≤ c) && decide (c ≤ 57)) ||
  (decide (65 ≤ c) && decide (c ≤ 90)) ||
  (decide (97 ≤ c) && decide (c ≤ 122))

/-- The safe-punctuation characters of the C literal (underscore, at sign, percent,
plus, equals, colon, comma, dot, slash, dash): `_ @ % + = : , . / -` as byte values. -/
def shlexSafeChars : List Nat := [95, 64, 37, 43, 61, 58, 44, 46, 47, 45]

/-- Models the C test `strchr(safe punctuation literal, c) != NULL`.  Note that C `strchr` also finds the
terminating NUL of the literal, so `c = 0` yields a non-NULL result: the NUL byte
counts as "safe" for the unsafe-byte test below. -/
def strchrSafe (c : Nat) : Bool :=
  shlexSafeChars.contains c || c == 0

/-- The C helper that decides whether a sized string contains any shell-unsafe
byte (named here with a char suffix): true iff some byte is neither alphanumeric
nor found by `strchr` in the safe-punctuation literal (including its NUL terminator). -/
def shlex__contains_unsafe_char (str : List Nat) : Bool :=
  str.any fun c => !isalnum c && !strchrSafe c

/-- A byte that never forces quoting: alphanumeric or found by the `strchr` test. -/
def safeByte (c : Nat) : Bool := isalnum c || strchrSafe c

/-- The Shlex structure: source range (as the byte list of `[source, source_end)`),
cursor index `point`, and the growable string storage (`string` = bytes written so
far, logical length `string_count`, allocated size `string_capacity`). -/
structure Shlex where
  source : List Nat
  point : Nat
  string : List Nat
  string_count : Nat
  string_capacity : Nat
deriving DecidableEq

/-- The `Shlex s = {0}` zero initializer. -/
def shlexZero : Shlex := ⟨[], 0, [], 0, 0⟩

/-- The logical content of the string storage: the first `string_count` stored bytes. -/
def Shlex.valid (s : Shlex) : List Nat := s.string.take s.string_count

/-- `shlex__string_append(s, x)`: grow the capacity if full (to 256 from 0, else
doubling) and write `x` at index `string_count`, incrementing it.  Writing at the
high-water mark extends the modelled written region. -/
def shlex__string_append (s : Shlex) (x : Nat) : Shlex :=
  { s with
    string_capacity :=
      if s.string_capacity ≤ s.string_count then
        (if s.string_capacity = 0 then 256 else s.string_capacity * 2)
      else s.string_capacity
    string :=
      if s.string_count < s.string.length then s.string.set s.string_count x
      else s.string ++ [x]
    string_count := s.string_count + 1 }

/-- `shlex_init(s, source, source_end)`: attach the source range and put the cursor
at its start. -/
def shlex_init (s : Shlex) (src : List Nat) : Shlex :=
  { s with source := src, point := 0 }

/-- `shlex_reset(s)`: detach the source and zero the logical length, keeping the
stored bytes and the capacity. -/
def shlex_reset (s : Shlex) : Shlex :=
  { s with source := [], point := 0, string_count := 0 }

/-- The token-scanning loop of `shlex_next`, pure form: given the quoting mode
`strlit` (0 = unquoted, 39 = inside single quotes, 34 = inside double quotes) and
the remaining source bytes, return the emitted token bytes and the source bytes
left when the loop stops.  The C loop appends the terminator on every exit path
and returns; here the caller appends it, which yields the same final state. -/
def shlexLoop : Nat → List Nat → List Nat × List Nat
  | _, [] => ([], [])
  | strlit, c :: rest =>
    if strlit = 39 then
      -- single quotes: everything literal, only a quote closes
      if c = 39 then shlexLoop 0 rest
      else ((shlexLoop 39 rest).1.cons c, (shlexLoop 39 rest).2)
    else if strlit = 34 then
      -- double quotes
      if c = 34 then shlexLoop 0 rest
      else if c = 92 then
        match rest with
        | [] => ([92], [])  -- trailing backslash: emit it literally and finalize
        | d :: rest2 =>
          if d = 36 ∨ d = 96 ∨ d = 92 ∨ d = 10 ∨ d = 34 then
            ((shlexLoop 34 rest2).1.cons d, (shlexLoop 34 rest2).2)
          else
            (92 :: d :: (shlexLoop 34 rest2).1, (shlexLoop 34 rest2).2)
      else ((shlexLoop 34 rest).1.cons c, (shlexLoop 34 rest).2)
    else
      -- unquoted (strlit = 0; the C default branch is unreachable)
      if c = 34 ∨ c = 39 then shlexLoop c rest
      else if c = 92 then
        match rest with
        | [] => ([], [])  -- lone trailing backslash is dropped, the loop then exits
        | d :: rest2 => ((shlexLoop 0 rest2).1.cons d, (shlexLoop 0 rest2).2)
      else if isspace c then ([], c :: rest)  -- token complete at whitespace
      else ((shlexLoop 0 rest).1.cons c, (shlexLoop 0 rest).2)

/-- Pure form of one `shlex_next` call on the remaining source bytes: skip
whitespace, report end-of-input on an exhausted range, otherwise scan one token,
returning its bytes and the source bytes left. -/
def shlexNextTok (src : List Nat) : Option (List Nat × List Nat) :=
  let rem := src.dropWhile fun c => isspace c
  if rem = [] then none else some (shlexLoop 0 rem)

/-- Repeated `shlex_next` until end-of-input, fuel-indexed (each produced token
consumes at least one source byte, so `length + 1` fuel always suffices). -/
def shlexSplitFuel : Nat → List Nat → List (List Nat)
  | 0, _ => []
  | fuel + 1, src =>
    match shlexNextTok src with
    | none => []
    | some (tok, rest) => tok :: shlexSplitFuel fuel rest

/-- All tokens of a source range, in order: the `while (shlex_next(&s))` idiom. -/
def shlexSplit (src : List Nat) : List (List Nat) :=
  shlexSplitFuel (src.length + 1) src

/-- The token-scanning loop of `shlex_next`, stateful form: identical control flow
to `shlexLoop` but emitting through `shlex__string_append` into the string storage.
Returns the updated structure and the remaining source bytes. -/
def shlexLoopS : Nat → Shlex → List Nat → Shlex × List Nat
  | _, s, [] => (s, [])
  | strlit, s, c :: rest =>
    if strlit = 39 then
      if c = 39 then shlexLoopS 0 s rest
      else shlexLoopS 39 (shlex__string_append s c) rest
    else if strlit = 34 then
      if c = 34 then shlexLoopS 0 s rest
      else if c = 92 then
        match rest with
        | [] => (shlex__string_append s 92, [])
        | d :: rest2 =>
          if d = 36 ∨ d = 96 ∨ d = 92 ∨ d = 10 ∨ d = 34 then
            shlexLoopS 34 (shlex__string_append s d) rest2
          else
            shlexLoopS 34 (shlex__string_append (shlex__string_append s 92) d) rest2
      else shlexLoopS 34 (shlex__string_append s c) rest
    else
      if c = 34 ∨ c = 39 then shlexLoopS c s rest
      else if c = 92 then
        match rest with
        | [] => (s, [])
        | d :: rest2 => shlexLoopS 0 (shlex__string_append s d) rest2
      else if isspace c then (s, c :: rest)
      else shlexLoopS 0 (shlex__string_append s c) rest

/-- `shlex_next(s)`: skip leading whitespace; if the range is exhausted return
NULL (here `none`) touching only the cursor; otherwise reset the logical length,
scan one token, append the NUL terminator, advance the cursor past the consumed
bytes, and return the token bytes (the stored bytes before the terminator). -/
def shlex_next (s : Shlex) : Option (List Nat) × Shlex :=
  let rem := (s.source.drop s.point).dropWhile fun c => isspace c
  if rem = [] then (none, { s with point := s.source.length })
  else
    let p := shlexLoopS 0 { s with string_count := 0 } rem
    let s1 := shlex__string_append p.1 0
    let s2 := { s1 with point := s.source.length - p.2.length }
    (some (s2.string.take (s2.string_count - 1)), s2)

/-- The body of the quoting loop of `shlex_append_quoted_sized`: a single quote is
expanded to the five appends `' " ' " '`; anything else is appended as-is. -/
def shlex__quote_step (s : Shlex) (c : Nat) : Shlex :=
  if c = 39 then
    shlex__string_append (shlex__string_append (shlex__string_append
      (shlex__string_append (shlex__string_append s 39) 34) 39) 34) 39
  else shlex__string_append s c

/-- `shlex_append_quoted_sized(s, str, n)`: space-separate from previous content,
append `''` for the empty string, append verbatim when no byte is unsafe, and
otherwise wrap in single quotes expanding embedded single quotes. -/
def shlex_append_quoted_sized (s : Shlex) (str : List Nat) : Shlex :=
  let s1 := if 0 < s.string_count then shlex__string_append s 32 else s
  if str.length = 0 then shlex__string_append (shlex__string_append s1 39) 39
  else if shlex__contains_unsafe_char str then
    shlex__string_append (str.foldl shlex__quote_step (shlex__string_append s1 39)) 39
  else str.foldl shlex__string_append s1

/-- `shlex_append_quoted(s, cstr)`: the NUL-terminated variant, using the bytes up
to the first NUL (C `strlen`). -/
def shlex_append_quoted (s : Shlex) (str : List Nat) : Shlex :=
  shlex_append_quoted_sized s (str.takeWhile fun c => !(c == 0))

/-- `shlex_join(s)`: append the NUL terminator, reset the logical length to zero,
and return the string storage (the C function returns the buffer start pointer). -/
def shlex_join (s : Shlex) : List Nat × Shlex :=
  let s1 := shlex__string_append s 0
  let s2 := { s1 with string_count := 0 }
  (s2.string, s2)

/-- The single-quote expansion of the quoting loop, pure form: every single quote
becomes the five bytes `' " ' " '`, every other byte is kept. -/
def shlexExpand : List Nat → List Nat
  | [] => []
  | c :: rest => (if c = 39 then [39, 34, 39, 34, 39] else [c]) ++ shlexExpand rest

/-- The bytes `shlex_append_quoted_sized` contributes for one string, pure form
(without the space separator). -/
def shlexQuoteOne (str : List Nat) : List Nat :=
  if str.length = 0 then [39, 39]
  else if shlex__contains_unsafe_char str then 39 :: (shlexExpand str ++ [39])
  else str

/-- The joined bytes contributed by each string after the first: a space separator
then the quoted form. -/
def shlexJoinTail : List (List Nat) → List Nat
  | [] => []
  | str :: rest => 32 :: (shlexQuoteOne str ++ shlexJoinTail rest)

/-- The full joined byte sequence of a list of strings, pure form: the logical
buffer content after appending each with `shlex_append_quoted_sized` from an
empty storage. -/
def shlexJoinList : List (List Nat) → List Nat
  | [] => []
  | str :: rest => shlexQuoteOne str ++ shlexJoinTail rest

/-! ## Step equations for the pure scanning loop -/

theorem shlexLoop_nil (strlit : Nat) : shlexLoop strlit [] = ([], []) := rfl

theorem shlexLoop_single_close (r : List Nat) : shlexLoop 39 (39 :: r) = shlexLoop 0 r := by
  cases r <;> simp [shlexLoop]

theorem shlexLoop_single_lit {c : Nat} (r : List Nat) (h : c ≠ 39) :
    shlexLoop 39 (c :: r) = (c :: (shlexLoop 39 r).1, (shlexLoop 39 r).2) := by
  cases r <;> simp [shlexLoop, h]

theorem shlexLoop_dquote_close (r : List Nat) : shlexLoop 34 (34 :: r) = shlexLoop 0 r := by
  cases r <;> simp [shlexLoop]

theorem shlexLoop_dquote_lit {c : Nat} (r : List Nat) (h1 : c ≠ 34) (h2 : c ≠ 92) :
    shlexLoop 34 (c :: r) = (c :: (shlexLoop 34 r).1, (shlexLoop 34 r).2) := by
  cases r <;> simp [shlexLoop, h1, h2]

theorem shlexLoop_dquote_bs_end : shlexLoop 34 [92] = ([92], []) := by
  simp [shlexLoop]

theorem shlexLoop_dquote_bs_esc {d : Nat} (r : List Nat)
    (h : d = 36 ∨ d = 96 ∨ d = 92 ∨ d = 10 ∨ d = 34) :
    shlexLoop 34 (92 :: d :: r) = (d :: (shlexLoop 34 r).1, (shlexLoop 34 r).2) := by
  simp [shlexLoop, h]

theorem shlexLoop_dquote_bs_lit {d : Nat} (r : List Nat)
    (h : ¬(d = 36 ∨ d = 96 ∨ d = 92 ∨ d = 10 ∨ d = 34)) :
    shlexLoop 34 (92 :: d :: r) = (92 :: d :: (shlexLoop 34 r).1, (shlexLoop 34 r).2) := by
  simp [shlexLoop, h]

theorem shlexLoop_unq_quote {c : Nat} (r : List Nat) (h : c = 34 ∨ c = 39) :
    shlexLoop 0 (c :: r) = shlexLoop c r := by
  rcases h with rfl | rfl <;> cases r <;> simp [shlexLoop]

theorem shlexLoop_unq_bs_end : shlexLoop 0 [92] = ([], []) := by
  simp [shlexLoop]

theorem shlexLoop_unq_bs (d : Nat) (r : List Nat) :
    shlexLoop 0 (92 :: d :: r) = (d :: (shlexLoop 0 r).1, (shlexLoop 0 r).2) := by
  simp [shlexLoop]

theorem shlexLoop_unq_space {c : Nat} (r : List Nat) (h : isspace c = true) :
    shlexLoop 0 (c :: r) = ([], c :: r) := by
  have hc : c ≠ 34 ∧ c ≠ 39 ∧ c ≠ 92 := by simp [isspace] at h; omega
  cases r <;> simp [shlexLoop, hc.1, hc.2.1, hc.2.2, h]

theorem shlexLoop_unq_lit {c : Nat} (r : List Nat)
    (h1 : c ≠ 34) (h2 : c ≠ 39) (h3 : c ≠ 92) (h4 : isspace c = false) :
    shlexLoop 0 (c :: r) = (c :: (shlexLoop 0 r).1, (shlexLoop 0 r).2) := by
  cases r <;> simp [shlexLoop, h1, h2, h3, h4]

/-! ## Byte classification facts -/

theorem safeByte_props {c : Nat} (h : safeByte c = true) :
    c ≠ 34 ∧ c ≠ 39 ∧ c ≠ 92 ∧ isspace c = false := by
  simp [safeByte, isalnum, strchrSafe, shlexSafeChars, isspace] at h ⊢
  omega

theorem contains_unsafe_char_eq_not_all (str : List Nat) :
    shlex__contains_unsafe_char str = !str.all safeByte := by
  simp [shlex__contains_unsafe_char, safeByte, List.all_eq_not_any_not]

/-! ## Progress: each produced token consumes at least one source byte -/

theorem dropWhile_head_false {p : Nat → Bool} :
    ∀ (l : List Nat) {c t}, l.dropWhile p = c :: t → p c = false := by
  intro l
  induction l with
  | nil => intro c t h; simp [List.dropWhile] at h
  | cons a l ih =>
    intro c t h
    by_cases ha : p a = true
    · rw [List.dropWhile_cons_of_pos ha] at h; exact ih h
    · rw [List.dropWhile_cons_of_neg ha] at h
      injection h with h1 h2
      subst h1; simpa using ha

theorem shlexLoop_rest_le :
    ∀ (n : Nat) (rem : List Nat) (strlit : Nat), rem.length ≤ n →
      strlit = 0 ∨ strlit = 39 ∨ strlit = 34 →
      ((shlexLoop strlit rem).2).length ≤ rem.length := by
  intro n
  induction n with
  | zero =>
    intro rem strlit h _
    have : rem = [] := List.length_eq_zero.mp (Nat.le_zero.mp h)
    subst this; simp [shlexLoop_nil]
  | succ n ih =>
    intro rem strlit h hst
    cases rem with
    | nil => simp [shlexLoop_nil]
    | cons c rest =>
      simp only [List.length_cons] at h
      have hr : rest.length ≤ n := by omega
      rcases hst with rfl | rfl | rfl
      · -- unquoted
        by_cases hq : c = 34 ∨ c = 39
        · rw [shlexLoop_unq_quote _ hq]
          have := ih rest c hr (by rcases hq with rfl | rfl
                                   · right; right; rfl
                                   · right; left; rfl)
          simp only [List.length_cons]; omega
        · by_cases hbs : c = 92
          · subst hbs
            cases rest with
            | nil => simp [shlexLoop_unq_bs_end]
            | cons d rest2 =>
              rw [shlexLoop_unq_bs]
              have := ih rest2 0 (by simp at hr ⊢; omega) (Or.inl rfl)
              simp only [List.length_cons] at *; omega
          · by_cases hsp : isspace c = true
            · rw [shlexLoop_unq_space _ hsp]
            · push_neg at hq
              rw [shlexLoop_unq_lit _ hq.1 hq.2 hbs (by simpa using hsp)]
              have := ih rest 0 hr (Or.inl rfl)
              simp only [List.length_cons]; omega
      · -- single quotes
        by_cases hc : c = 39
        · subst hc; rw [shlexLoop_single_close]
          have := ih rest 0 hr (Or.inl rfl)
          simp only [List.length_cons]; omega
        · rw [shlexLoop_single_lit _ hc]
          have := ih rest 39 hr (Or.inr (Or.inl rfl))
          simp only [List.length_cons]; omega
      · -- double quotes
        by_cases hc : c = 34
        · subst hc; rw [shlexLoop_dquote_close]
          have := ih rest 0 hr (Or.inl rfl)
          simp only [List.length_cons]; omega
        · by_cases hbs : c = 92
          · subst hbs
            cases rest with
            | nil => simp [shlexLoop_dquote_bs_end]
            | cons d rest2 =>
              have hr2 : rest2.length ≤ n := by simp at hr ⊢; omega
              have := ih rest2 34 hr2 (Or.inr (Or.inr rfl))
              by_cases hd : d = 36 ∨ d = 96 ∨ d = 92 ∨ d = 10 ∨ d = 34
              · rw [shlexLoop_dquote_bs_esc _ hd]
                simp only [List.length_cons] at *; omega
              · rw [shlexLoop_dquote_bs_lit _ hd]
                simp only [List.length_cons] at *; omega
          · rw [shlexLoop_dquote_lit _ hc hbs]
            have := ih rest 34 hr (Or.inr (Or.inr rfl))
            simp only [List.length_cons]; omega

theorem shlexNextTok_progress :
    ∀ {src tok rest}, shlexNextTok src = some (tok, rest) → rest.length < src.length := by
  intro src tok rest h
  unfold shlexNextTok at h
  by_cases hnil : src.dropWhile (fun c => isspace c) = []
  · simp [hnil] at h
  · simp only [hnil, if_false] at h
    obtain ⟨c, t, hct⟩ : ∃ c t, src.dropWhile (fun c => isspace c) = c :: t := by
      cases hd : src.dropWhile (fun c => isspace c) with
      | nil => exact absurd hd hnil
      | cons a b => exact ⟨a, b, rfl⟩
    have hc : isspace c = false := dropWhile_head_false _ hct
    have hrle : (src.dropWhile (fun c => isspace c)).length ≤ src.length :=
      (List.dropWhile_suffix _).length_le
    rw [hct] at h hrle
    have h2 : (shlexLoop 0 (c :: t)).2 = rest := by rw [Option.some.inj h]
    have hb : rest.length ≤ t.length := by
      by_cases hq : c = 34 ∨ c = 39
      · rw [shlexLoop_unq_quote _ hq] at h2
        have := shlexLoop_rest_le t.length t c le_rfl
          (by rcases hq with rfl | rfl
              · right; right; rfl
              · right; left; rfl)
        rw [h2] at this; exact this
      · by_cases hbs : c = 92
        · subst hbs
          cases t with
          | nil => rw [shlexLoop_unq_bs_end] at h2; simp [← h2]
          | cons d t2 =>
            rw [shlexLoop_unq_bs] at h2
            have := shlexLoop_rest_le t2.length t2 0 le_rfl (Or.inl rfl)
            rw [h2] at this; simp only [List.length_cons]; omega
        · push_neg at hq
          rw [shlexLoop_unq_lit _ hq.1 hq.2 hbs hc] at h2
          have := shlexLoop_rest_le t.length t 0 le_rfl (Or.inl rfl)
          rw [h2] at this; exact this
    simp only [List.length_cons] at hrle; omega

theorem shlexSplitFuel_succ (fuel : Nat) (src : List Nat) :
    shlexSplitFuel (fuel + 1) src =
      (match shlexNextTok src with
       | none => []
       | some (tok, rest) => tok :: shlexSplitFuel fuel rest) := rfl

theorem shlexSplitFuel_congr :
    ∀ (f g : Nat) (src : List Nat), src.length < f → src.length < g →
      shlexSplitFuel f src = shlexSplitFuel g src := by
  intro f
  induction f with
  | zero => intro g src hf _; omega
  | succ f ih =>
    intro g src hf hg
    cases g with
    | zero => omega
    | succ g =>
      rw [shlexSplitFuel_succ, shlexSplitFuel_succ]
      cases hnt : shlexNextTok src with
      | none => rfl
      | some p =>
        obtain ⟨tok, rest⟩ := p
        have hp := shlexNextTok_progress hnt
        show tok :: shlexSplitFuel f rest = tok :: shlexSplitFuel g rest
        exact congrArg (tok :: ·) (ih g rest (by omega) (by omega))

theorem shlexSplitFuel_eq_split {f : Nat} {src : List Nat} (h : src.length < f) :
    shlexSplitFuel f src = shlexSplit src :=
  shlexSplitFuel_congr f (src.length + 1) src h (by omega)

theorem shlexSplit_eq_nil {src : List Nat} (h : shlexNextTok src = none) :
    shlexSplit src = [] := by
  show shlexSplitFuel (src.length + 1) src = []
  rw [shlexSplitFuel_succ, h]

theorem shlexSplit_eq_cons {src tok rest} (h : shlexNextTok src = some (tok, rest)) :
    shlexSplit src = tok :: shlexSplit rest := by
  have hp := shlexNextTok_progress h
  have h1 : shlexSplit src = tok :: shlexSplitFuel src.length rest := by
    show shlexSplitFuel (src.length + 1) src = _
    rw [shlexSplitFuel_succ, h]
  rw [h1, shlexSplitFuel_eq_split hp]

theorem shlexNextTok_cons_space {c : Nat} (x : List Nat) (h : isspace c = true) :
    shlexNextTok (c :: x) = shlexNextTok x := by
  unfold shlexNextTok
  rw [List.dropWhile_cons_of_pos h]

theorem shlexSplit_cons_space {c : Nat} (x : List Nat) (h : isspace c = true) :
    shlexSplit (c :: x) = shlexSplit x := by
  cases hnt : shlexNextTok x with
  | none =>
    rw [shlexSplit_eq_nil hnt, shlexSplit_eq_nil (by rw [shlexNextTok_cons_space x h, hnt])]
  | some p =>
    obtain ⟨tok, rest⟩ := p
    rw [shlexSplit_eq_cons hnt, shlexSplit_eq_cons (by rw [shlexNextTok_cons_space x h, hnt])]

/-! ## Scanning the quoted forms produced by the encoder -/

theorem shlexLoop_safe_run :
    ∀ (str r : List Nat), (∀ c ∈ str, safeByte c = true) →
      shlexLoop 0 (str ++ r) = (str ++ (shlexLoop 0 r).1, (shlexLoop 0 r).2) := by
  intro str
  induction str with
  | nil => intro r _; simp
  | cons c t ih =>
    intro r h
    have hc := safeByte_props (h c (by simp))
    simp only [List.cons_append]
    rw [shlexLoop_unq_lit (t ++ r) hc.1 hc.2.1 hc.2.2.1 hc.2.2.2]
    rw [ih r fun x hx => h x (by simp [hx])]

theorem shlexLoop_expand_run :
    ∀ (str r : List Nat),
      shlexLoop 39 (shlexExpand str ++ (39 :: r)) =
        (str ++ (shlexLoop 0 r).1, (shlexLoop 0 r).2) := by
  intro str
  induction str with
  | nil => intro r; simp [shlexExpand, shlexLoop_single_close]
  | cons c t ih =>
    intro r
    by_cases hc : c = 39
    · subst hc
      have hsh : shlexExpand (39 :: t) ++ (39 :: r)
          = 39 :: 34 :: 39 :: 34 :: 39 :: (shlexExpand t ++ (39 :: r)) := by
        simp [shlexExpand]
      rw [hsh, shlexLoop_single_close, shlexLoop_unq_quote _ (Or.inl rfl),
        shlexLoop_dquote_lit _ (by omega) (by omega), shlexLoop_dquote_close,
        shlexLoop_unq_quote _ (Or.inr rfl), ih r]
      simp
    · have hsh : shlexExpand (c :: t) ++ (39 :: r) = c :: (shlexExpand t ++ (39 :: r)) := by
        simp [shlexExpand, hc]
      rw [hsh, shlexLoop_single_lit _ hc, ih r]
      simp

theorem shlexNextTok_quoted (str r : List Nat) (hr : shlexLoop 0 r = ([], r)) :
    shlexNextTok (shlexQuoteOne str ++ r) = some (str, r) := by
  by_cases h0 : str.length = 0
  · have hstr : str = [] := List.length_eq_zero.mp h0
    subst hstr
    have hq : shlexQuoteOne [] ++ r = 39 :: 39 :: r := by simp [shlexQuoteOne]
    rw [hq]
    unfold shlexNextTok
    rw [List.dropWhile_cons_of_neg (by simp [isspace])]
    rw [if_neg (by simp)]
    rw [shlexLoop_unq_quote _ (Or.inr rfl), shlexLoop_single_close, hr]
  · by_cases hu : shlex__contains_unsafe_char str = true
    · have hq : shlexQuoteOne str ++ r = 39 :: (shlexExpand str ++ (39 :: r)) := by
        simp [shlexQuoteOne, h0, hu]
      rw [hq]
      unfold shlexNextTok
      rw [List.dropWhile_cons_of_neg (by simp [isspace])]
      rw [if_neg (by simp)]
      rw [shlexLoop_unq_quote _ (Or.inr rfl), shlexLoop_expand_run, hr]
      simp
    · have hall : ∀ c ∈ str, safeByte c = true := by
        rw [contains_unsafe_char_eq_not_all] at hu
        simp at hu
        exact hu
      have hq : shlexQuoteOne str ++ r = str ++ r := by
        simp [shlexQuoteOne, h0, hu]
      rw [hq]
      cases str with
      | nil => exact (h0 rfl).elim
      | cons c t =>
        have hc := safeByte_props (hall c (by simp))
        unfold shlexNextTok
        simp only [List.cons_append]
        rw [List.dropWhile_cons_of_neg (by simp [hc.2.2.2])]
        rw [if_neg (by simp)]
        have := shlexLoop_safe_run (c :: t) r hall
        simp only [List.cons_append] at this
        rw [this, hr]
        simp

/-- Pure round trip: splitting the joined byte sequence recovers every string. -/
theorem shlexSplit_joinList : ∀ S : List (List Nat), shlexSplit (shlexJoinList S) = S := by
  intro S
  induction S with
  | nil =>
    apply shlexSplit_eq_nil
    decide
  | cons s rest ih =>
    cases rest with
    | nil =>
      have h := shlexNextTok_quoted s [] (by simp [shlexLoop_nil])
      have hshape : shlexJoinList [s] = shlexQuoteOne s ++ [] := by
        simp [shlexJoinList, shlexJoinTail]
      rw [hshape, shlexSplit_eq_cons h]
      rw [shlexSplit_eq_nil (by decide)]
    | cons u rest2 =>
      have hr : shlexLoop 0 (32 :: shlexJoinList (u :: rest2))
          = ([], 32 :: shlexJoinList (u :: rest2)) :=
        shlexLoop_unq_space _ (by decide)
      have h := shlexNextTok_quoted s (32 :: shlexJoinList (u :: rest2)) hr
      have hshape : shlexJoinList (s :: u :: rest2)
          = shlexQuoteOne s ++ (32 :: shlexJoinList (u :: rest2)) := by
        simp [shlexJoinList, shlexJoinTail]
      rw [hshape, shlexSplit_eq_cons h, shlexSplit_cons_space _ (by decide), ih]

/-! ## The growable string storage -/

theorem take_set_succ :
    ∀ (l : List Nat) (n x : Nat), n < l.length →
      (l.set n x).take (n + 1) = l.take n ++ [x] := by
  intro l
  induction l with
  | nil => intro n x h; simp at h
  | cons a t ih =>
    intro n x h
    cases n with
    | zero => simp
    | succ n =>
      simp only [List.set_cons_succ, List.take_succ_cons, List.take, List.cons_append]
      rw [ih n x (by simp at h; omega)]

theorem shlex__string_append_spec (s : Shlex) (x : Nat) (h : s.string_count ≤ s.string.length) :
    (shlex__string_append s x).valid = s.valid ++ [x] ∧
    (shlex__string_append s x).string_count = s.string_count + 1 ∧
    (shlex__string_append s x).string_count ≤ (shlex__string_append s x).string.length ∧
    (shlex__string_append s x).source = s.source ∧
    (shlex__string_append s x).point = s.point := by
  refine ⟨?_, rfl, ?_, rfl, rfl⟩
  · unfold shlex__string_append Shlex.valid
    by_cases hlt : s.string_count < s.string.length
    · simp only [hlt, if_true]
      exact take_set_succ _ _ _ hlt
    · simp only [hlt, if_false]
      rw [List.take_of_length_le (by simp; omega), List.take_of_length_le (by omega)]
  · unfold shlex__string_append
    by_cases hlt : s.string_count < s.string.length
    · simp only [hlt, if_true, List.length_set]
      omega
    · simp only [hlt, if_false, List.length_append, List.length_cons, List.length_nil]
      omega

theorem shlex__string_append_exact (s : Shlex) (x : Nat) (h : s.string_count = s.string.length) :
    (shlex__string_append s x).string = s.string ++ [x] ∧
    (shlex__string_append s x).string_count = (shlex__string_append s x).string.length ∧
    (shlex__string_append s x).source = s.source ∧
    (shlex__string_append s x).point = s.point := by
  unfold shlex__string_append
  simp [h]

theorem foldl_string_append_exact :
    ∀ (l : List Nat) (s : Shlex), s.string_count = s.string.length →
      (l.foldl shlex__string_append s).string = s.string ++ l ∧
      (l.foldl shlex__string_append s).string_count
        = (l.foldl shlex__string_append s).string.length := by
  intro l
  induction l with
  | nil => intro s h; simp [h]
  | cons x t ih =>
    intro s h
    have ha := shlex__string_append_exact s x h
    have hrest := ih (shlex__string_append s x) ha.2.1
    simp only [List.foldl_cons]
    refine ⟨?_, hrest.2⟩
    rw [hrest.1, ha.1]
    simp

theorem shlex__quote_step_quote (s : Shlex) :
    shlex__quote_step s 39 = shlex__string_append (shlex__string_append (shlex__string_append
      (shlex__string_append (shlex__string_append s 39) 34) 39) 34) 39 := by
  simp [shlex__quote_step]

theorem shlex__quote_step_other (s : Shlex) {c : Nat} (hc : c ≠ 39) :
    shlex__quote_step s c = shlex__string_append s c := by
  simp [shlex__quote_step, hc]

theorem foldl_quote_step_exact :
    ∀ (str : List Nat) (s : Shlex), s.string_count = s.string.length →
      (str.foldl shlex__quote_step s).string = s.string ++ shlexExpand str ∧
      (str.foldl shlex__quote_step s).string_count
        = (str.foldl shlex__quote_step s).string.length := by
  intro str
  induction str with
  | nil => intro s h; simp [shlexExpand, h]
  | cons c t ih =>
    intro s h
    by_cases hc : c = 39
    · subst hc
      have h1 := shlex__string_append_exact s 39 h
      have h2 := shlex__string_append_exact _ 34 h1.2.1
      have h3 := shlex__string_append_exact _ 39 h2.2.1
      have h4 := shlex__string_append_exact _ 34 h3.2.1
      have h5 := shlex__string_append_exact _ 39 h4.2.1
      have hrest := ih _ h5.2.1
      simp only [List.foldl_cons, shlex__quote_step_quote]
      refine ⟨?_, hrest.2⟩
      rw [hrest.1, h5.1, h4.1, h3.1, h2.1, h1.1]
      simp [shlexExpand]
    · have h1 := shlex__string_append_exact s c h
      have hrest := ih _ h1.2.1
      simp only [List.foldl_cons, shlex__quote_step_other _ hc]
      refine ⟨?_, hrest.2⟩
      rw [hrest.1, h1.1]
      simp [shlexExpand, hc]

theorem shlex_append_quoted_sized_exact (s : Shlex) (str : List Nat)
    (h : s.string_count = s.string.length) :
    (shlex_append_quoted_sized s str).string
      = s.string ++ (if s.string_count = 0 then [] else [32]) ++ shlexQuoteOne str ∧
    (shlex_append_quoted_sized s str).string_count
      = (shlex_append_quoted_sized s str).string.length := by
  unfold shlex_append_quoted_sized
  by_cases h0 : 0 < s.string_count
  · rw [if_pos h0, if_neg (by omega : ¬s.string_count = 0)]
    have hsep := shlex__string_append_exact s 32 h
    by_cases hlen : str.length = 0
    · have hstr : str = [] := List.length_eq_zero.mp hlen
      subst hstr
      simp only [List.length_nil, eq_self_iff_true]
      rw [if_pos True.intro]
      have h1 := shlex__string_append_exact _ 39 hsep.2.1
      have h2 := shlex__string_append_exact _ 39 h1.2.1
      refine ⟨?_, h2.2.1⟩
      rw [h2.1, h1.1, hsep.1]
      simp [shlexQuoteOne]
    · rw [if_neg hlen]
      by_cases hu : shlex__contains_unsafe_char str = true
      · rw [if_pos hu]
        have h1 := shlex__string_append_exact _ 39 hsep.2.1
        have h2 := foldl_quote_step_exact str _ h1.2.1
        have h3 := shlex__string_append_exact _ 39 h2.2
        refine ⟨?_, h3.2.1⟩
        rw [h3.1, h2.1, h1.1, hsep.1]
        simp [shlexQuoteOne, hlen, hu]
      · rw [if_neg hu]
        have h1 := foldl_string_append_exact str _ hsep.2.1
        refine ⟨?_, h1.2⟩
        rw [h1.1, hsep.1]
        simp only [Bool.not_eq_true] at hu
        simp [shlexQuoteOne, hlen, hu]
  · have h0' : s.string_count = 0 := by omega
    rw [if_neg h0, if_pos h0']
    by_cases hlen : str.length = 0
    · have hstr : str = [] := List.length_eq_zero.mp hlen
      subst hstr
      simp only [List.length_nil, eq_self_iff_true]
      rw [if_pos True.intro]
      have h1 := shlex__string_append_exact s 39 h
      have h2 := shlex__string_append_exact _ 39 h1.2.1
      refine ⟨?_, h2.2.1⟩
      rw [h2.1, h1.1]
      simp [shlexQuoteOne]
    · rw [if_neg hlen]
      by_cases hu : shlex__contains_unsafe_char str = true
      · rw [if_pos hu]
        have h1 := shlex__string_append_exact s 39 h
        have h2 := foldl_quote_step_exact str _ h1.2.1
        have h3 := shlex__string_append_exact _ 39 h2.2
        refine ⟨?_, h3.2.1⟩
        rw [h3.1, h2.1, h1.1]
        simp [shlexQuoteOne, hlen, hu]
      · rw [if_neg hu]
        have h1 := foldl_string_append_exact str s h
        refine ⟨?_, h1.2⟩
        rw [h1.1]
        simp only [Bool.not_eq_true] at hu
        simp [shlexQuoteOne, hlen, hu]

theorem foldl_string_append_valid :
    ∀ (l : List Nat) (s : Shlex), s.string_count ≤ s.string.length →
      (l.foldl shlex__string_append s).valid = s.valid ++ l ∧
      (l.foldl shlex__string_append s).string_count
        ≤ (l.foldl shlex__string_append s).string.length := by
  intro l
  induction l with
  | nil => intro s h; simp [h]
  | cons x t ih =>
    intro s h
    have ha := shlex__string_append_spec s x h
    have hrest := ih (shlex__string_append s x) ha.2.2.1
    simp only [List.foldl_cons]
    refine ⟨?_, hrest.2⟩
    rw [hrest.1, ha.1]
    simp

theorem foldl_quote_step_valid :
    ∀ (str : List Nat) (s : Shlex), s.string_count ≤ s.string.length →
      (str.foldl shlex__quote_step s).valid = s.valid ++ shlexExpand str ∧
      (str.foldl shlex__quote_step s).string_count
        ≤ (str.foldl shlex__quote_step s).string.length := by
  intro str
  induction str with
  | nil => intro s h; simp [shlexExpand, h]
  | cons c t ih =>
    intro s h
    by_cases hc : c = 39
    · subst hc
      have h1 := shlex__string_append_spec s 39 h
      have h2 := shlex__string_append_spec _ 34 h1.2.2.1
      have h3 := shlex__string_append_spec _ 39 h2.2.2.1
      have h4 := shlex__string_append_spec _ 34 h3.2.2.1
      have h5 := shlex__string_append_spec _ 39 h4.2.2.1
      have hrest := ih _ h5.2.2.1
      simp only [List.foldl_cons, shlex__quote_step_quote]
      refine ⟨?_, hrest.2⟩
      rw [hrest.1, h5.1, h4.1, h3.1, h2.1, h1.1]
      simp [shlexExpand]
    · have h1 := shlex__string_append_spec s c h
      have hrest := ih _ h1.2.2.1
      simp only [List.foldl_cons, shlex__quote_step_other _ hc]
      refine ⟨?_, hrest.2⟩
      rw [hrest.1, h1.1]
      simp [shlexExpand, hc]

theorem shlex_append_quoted_sized_valid (s : Shlex) (str : List Nat)
    (h : s.string_count ≤ s.string.length) :
    (shlex_append_quoted_sized s str).valid
      = s.valid ++ (if s.string_count = 0 then [] else [32]) ++ shlexQuoteOne str ∧
    (shlex_append_quoted_sized s str).string_count
      ≤ (shlex_append_quoted_sized s str).string.length := by
  unfold shlex_append_quoted_sized
  by_cases h0 : 0 < s.string_count
  · rw [if_pos h0, if_neg (by omega : ¬s.string_count = 0)]
    have hsep := shlex__string_append_spec s 32 h
    by_cases hlen : str.length = 0
    · have hstr : str = [] := List.length_eq_zero.mp hlen
      subst hstr
      simp only [List.length_nil, eq_self_iff_true]
      rw [if_pos True.intro]
      have h1 := shlex__string_append_spec _ 39 hsep.2.2.1
      have h2 := shlex__string_append_spec _ 39 h1.2.2.1
      refine ⟨?_, h2.2.2.1⟩
      rw [h2.1, h1.1, hsep.1]
      simp [shlexQuoteOne]
    · rw [if_neg hlen]
      by_cases hu : shlex__contains_unsafe_char str = true
      · rw [if_pos hu]
        have h1 := shlex__string_append_spec _ 39 hsep.2.2.1
        have h2 := foldl_quote_step_valid str _ h1.2.2.1
        have h3 := shlex__string_append_spec _ 39 h2.2
        refine ⟨?_, h3.2.2.1⟩
        rw [h3.1, h2.1, h1.1, hsep.1]
        simp [shlexQuoteOne, hlen, hu]
      · rw [if_neg hu]
        have h1 := foldl_string_append_valid str _ hsep.2.2.1
        refine ⟨?_, h1.2⟩
        rw [h1.1, hsep.1]
        simp only [Bool.not_eq_true] at hu
        simp [shlexQuoteOne, hlen, hu]
  · have h0' : s.string_count = 0 := by omega
    rw [if_neg h0, if_pos h0']
    by_cases hlen : str.length = 0
    · have hstr : str = [] := List.length_eq_zero.mp hlen
      subst hstr
      simp only [List.length_nil, eq_self_iff_true]
      rw [if_pos True.intro]
      have h1 := shlex__string_append_spec s 39 h
      have h2 := shlex__string_append_spec _ 39 h1.2.2.1
      refine ⟨?_, h2.2.2.1⟩
      rw [h2.1, h1.1]
      simp [shlexQuoteOne]
    · rw [if_neg hlen]
      by_cases hu : shlex__contains_unsafe_char str = true
      · rw [if_pos hu]
        have h1 := shlex__string_append_spec s 39 h
        have h2 := foldl_quote_step_valid str _ h1.2.2.1
        have h3 := shlex__string_append_spec _ 39 h2.2
        refine ⟨?_, h3.2.2.1⟩
        rw [h3.1, h2.1, h1.1]
        simp [shlexQuoteOne, hlen, hu]
      · rw [if_neg hu]
        have h1 := foldl_string_append_valid str s h
        refine ⟨?_, h1.2⟩
        rw [h1.1]
        simp only [Bool.not_eq_true] at hu
        simp [shlexQuoteOne, hlen, hu]

theorem shlexQuoteOne_length_pos (str : List Nat) : 0 < (shlexQuoteOne str).length := by
  unfold shlexQuoteOne
  by_cases hlen : str.length = 0
  · simp [hlen]
  · by_cases hu : shlex__contains_unsafe_char str = true
    · simp [hlen, hu]
    · simp [hlen, hu]
      omega

theorem foldl_append_quoted_exact :
    ∀ (S : List (List Nat)) (s : Shlex), s.string_count = s.string.length →
      (S.foldl shlex_append_quoted_sized s).string
        = s.string ++ (if s.string_count = 0 then shlexJoinList S else shlexJoinTail S) ∧
      (S.foldl shlex_append_quoted_sized s).string_count
        = (S.foldl shlex_append_quoted_sized s).string.length := by
  intro S
  induction S with
  | nil => intro s h; simp [shlexJoinList, shlexJoinTail, h]
  | cons str rest ih =>
    intro s h
    have ha := shlex_append_quoted_sized_exact s str h
    have hpos : 0 < (shlex_append_quoted_sized s str).string_count := by
      rw [ha.2, ha.1]
      have := shlexQuoteOne_length_pos str
      simp; omega
    have hrest := ih (shlex_append_quoted_sized s str) ha.2
    simp only [List.foldl_cons]
    refine ⟨?_, hrest.2⟩
    rw [hrest.1, if_neg (by omega : ¬(shlex_append_quoted_sized s str).string_count = 0), ha.1]
    by_cases h0 : s.string_count = 0
    · rw [if_pos h0, if_pos h0]
      simp [shlexJoinList]
    · rw [if_neg h0, if_neg h0]
      simp [shlexJoinTail]

/-! ## Step equations for the stateful scanning loop -/

theorem shlexLoopS_nil (strlit : Nat) (s : Shlex) : shlexLoopS strlit s [] = (s, []) := rfl

theorem shlexLoopS_single_close (s : Shlex) (r : List Nat) :
    shlexLoopS 39 s (39 :: r) = shlexLoopS 0 s r := by
  cases r <;> simp [shlexLoopS]

theorem shlexLoopS_single_lit {c : Nat} (s : Shlex) (r : List Nat) (h : c ≠ 39) :
    shlexLoopS 39 s (c :: r) = shlexLoopS 39 (shlex__string_append s c) r := by
  cases r <;> simp [shlexLoopS, h]

theorem shlexLoopS_dquote_close (s : Shlex) (r : List Nat) :
    shlexLoopS 34 s (34 :: r) = shlexLoopS 0 s r := by
  cases r <;> simp [shlexLoopS]

theorem shlexLoopS_dquote_lit {c : Nat} (s : Shlex) (r : List Nat) (h1 : c ≠ 34) (h2 : c ≠ 92) :
    shlexLoopS 34 s (c :: r) = shlexLoopS 34 (shlex__string_append s c) r := by
  cases r <;> simp [shlexLoopS, h1, h2]

theorem shlexLoopS_dquote_bs_end (s : Shlex) :
    shlexLoopS 34 s [92] = (shlex__string_append s 92, []) := by
  simp [shlexLoopS]

theorem shlexLoopS_dquote_bs_esc {d : Nat} (s : Shlex) (r : List Nat)
    (h : d = 36 ∨ d = 96 ∨ d = 92 ∨ d = 10 ∨ d = 34) :
    shlexLoopS 34 s (92 :: d :: r) = shlexLoopS 34 (shlex__string_append s d) r := by
  simp [shlexLoopS, h]

theorem shlexLoopS_dquote_bs_lit {d : Nat} (s : Shlex) (r : List Nat)
    (h : ¬(d = 36 ∨ d = 96 ∨ d = 92 ∨ d = 10 ∨ d = 34)) :
    shlexLoopS 34 s (92 :: d :: r)
      = shlexLoopS 34 (shlex__string_append (shlex__string_append s 92) d) r := by
  simp [shlexLoopS, h]

theorem shlexLoopS_unq_quote {c : Nat} (s : Shlex) (r : List Nat) (h : c = 34 ∨ c = 39) :
    shlexLoopS 0 s (c :: r) = shlexLoopS c s r := by
  rcases h with rfl | rfl <;> cases r <;> simp [shlexLoopS]

theorem shlexLoopS_unq_bs_end (s : Shlex) : shlexLoopS 0 s [92] = (s, []) := by
  simp [shlexLoopS]

theorem shlexLoopS_unq_bs (d : Nat) (s : Shlex) (r : List Nat) :
    shlexLoopS 0 s (92 :: d :: r) = shlexLoopS 0 (shlex__string_append s d) r := by
  simp [shlexLoopS]

theorem shlexLoopS_unq_space {c : Nat} (s : Shlex) (r : List Nat) (h : isspace c = true) :
    shlexLoopS 0 s (c :: r) = (s, c :: r) := by
  have hc : c ≠ 34 ∧ c ≠ 39 ∧ c ≠ 92 := by simp [isspace] at h; omega
  cases r <;> simp [shlexLoopS, hc.1, hc.2.1, hc.2.2, h]

theorem shlexLoopS_unq_lit {c : Nat} (s : Shlex) (r : List Nat)
    (h1 : c ≠ 34) (h2 : c ≠ 39) (h3 : c ≠ 92) (h4 : isspace c = false) :
    shlexLoopS 0 s (c :: r) = shlexLoopS 0 (shlex__string_append s c) r := by
  cases r <;> simp [shlexLoopS, h1, h2, h3, h4]

/-- The stateful scanning loop refines the pure one: it emits exactly the pure
loop's bytes into the storage, stops at the same remaining source bytes, keeps
the length invariant, and never touches the source range or the cursor. -/
theorem shlexLoopS_spec :
    ∀ (n : Nat) (rem : List Nat) (strlit : Nat) (s : Shlex), rem.length ≤ n →
      strlit = 0 ∨ strlit = 39 ∨ strlit = 34 →
      s.string_count ≤ s.string.length →
      (shlexLoopS strlit s rem).1.valid = s.valid ++ (shlexLoop strlit rem).1 ∧
      (shlexLoopS strlit s rem).2 = (shlexLoop strlit rem).2 ∧
      (shlexLoopS strlit s rem).1.string_count
        ≤ (shlexLoopS strlit s rem).1.string.length ∧
      (shlexLoopS strlit s rem).1.string_count
        = s.string_count + (shlexLoop strlit rem).1.length ∧
      (shlexLoopS strlit s rem).1.source = s.source ∧
      (shlexLoopS strlit s rem).1.point = s.point := by
  intro n
  induction n with
  | zero =>
    intro rem strlit s h _ hinv
    have : rem = [] := List.length_eq_zero.mp (Nat.le_zero.mp h)
    subst this
    simp [shlexLoopS_nil, shlexLoop_nil, hinv]
  | succ n ih =>
    intro rem strlit s h hst hinv
    cases rem with
    | nil => simp [shlexLoopS_nil, shlexLoop_nil, hinv]
    | cons c rest =>
      simp only [List.length_cons] at h
      have hr : rest.length ≤ n := by omega
      rcases hst with rfl | rfl | rfl
      · -- unquoted
        by_cases hq : c = 34 ∨ c = 39
        · rw [shlexLoopS_unq_quote _ _ hq, shlexLoop_unq_quote _ hq]
          exact ih rest c s hr
            (by rcases hq with rfl | rfl
                · right; right; rfl
                · right; left; rfl) hinv
        · by_cases hbs : c = 92
          · subst hbs
            cases rest with
            | nil =>
              rw [shlexLoopS_unq_bs_end, shlexLoop_unq_bs_end]
              simp [hinv]
            | cons d rest2 =>
              rw [shlexLoopS_unq_bs, shlexLoop_unq_bs]
              have ha := shlex__string_append_spec s d hinv
              have := ih rest2 0 (shlex__string_append s d)
                (by simp at hr ⊢; omega) (Or.inl rfl) ha.2.2.1
              refine ⟨?_, this.2.1, this.2.2.1, ?_, ?_, ?_⟩
              · rw [this.1, ha.1]; simp
              · rw [this.2.2.2.1, ha.2.1]; simp; omega
              · rw [this.2.2.2.2.1, ha.2.2.2.1]
              · rw [this.2.2.2.2.2, ha.2.2.2.2]
          · by_cases hsp : isspace c = true
            · rw [shlexLoopS_unq_space _ _ hsp, shlexLoop_unq_space _ hsp]
              simp [hinv]
            · push_neg at hq
              rw [shlexLoopS_unq_lit _ _ hq.1 hq.2 hbs (by simpa using hsp),
                shlexLoop_unq_lit _ hq.1 hq.2 hbs (by simpa using hsp)]
              have ha := shlex__string_append_spec s c hinv
              have := ih rest 0 (shlex__string_append s c) hr (Or.inl rfl) ha.2.2.1
              refine ⟨?_, this.2.1, this.2.2.1, ?_, ?_, ?_⟩
              · rw [this.1, ha.1]; simp
              · rw [this.2.2.2.1, ha.2.1]; simp; omega
              · rw [this.2.2.2.2.1, ha.2.2.2.1]
              · rw [this.2.2.2.2.2, ha.2.2.2.2]
      · -- single quotes
        by_cases hc : c = 39
        · subst hc
          rw [shlexLoopS_single_close, shlexLoop_single_close]
          exact ih rest 0 s hr (Or.inl rfl) hinv
        · rw [shlexLoopS_single_lit _ _ hc, shlexLoop_single_lit _ hc]
          have ha := shlex__string_append_spec s c hinv
          have := ih rest 39 (shlex__string_append s c) hr (Or.inr (Or.inl rfl)) ha.2.2.1
          refine ⟨?_, this.2.1, this.2.2.1, ?_, ?_, ?_⟩
          · rw [this.1, ha.1]; simp
          · rw [this.2.2.2.1, ha.2.1]; simp; omega
          · rw [this.2.2.2.2.1, ha.2.2.2.1]
          · rw [this.2.2.2.2.2, ha.2.2.2.2]
      · -- double quotes
        by_cases hc : c = 34
        · subst hc
          rw [shlexLoopS_dquote_close, shlexLoop_dquote_close]
          exact ih rest 0 s hr (Or.inl rfl) hinv
        · by_cases hbs : c = 92
          · subst hbs
            cases rest with
            | nil =>
              rw [shlexLoopS_dquote_bs_end, shlexLoop_dquote_bs_end]
              have ha := shlex__string_append_spec s 92 hinv
              exact ⟨ha.1, rfl, ha.2.2.1, by rw [ha.2.1]; simp, ha.2.2.2.1, ha.2.2.2.2⟩
            | cons d rest2 =>
              have hr2 : rest2.length ≤ n := by simp at hr ⊢; omega
              by_cases hd : d = 36 ∨ d = 96 ∨ d = 92 ∨ d = 10 ∨ d = 34
              · rw [shlexLoopS_dquote_bs_esc _ _ hd, shlexLoop_dquote_bs_esc _ hd]
                have ha := shlex__string_append_spec s d hinv
                have := ih rest2 34 (shlex__string_append s d) hr2
                  (Or.inr (Or.inr rfl)) ha.2.2.1
                refine ⟨?_, this.2.1, this.2.2.1, ?_, ?_, ?_⟩
                · rw [this.1, ha.1]; simp
                · rw [this.2.2.2.1, ha.2.1]; simp; omega
                · rw [this.2.2.2.2.1, ha.2.2.2.1]
                · rw [this.2.2.2.2.2, ha.2.2.2.2]
              · rw [shlexLoopS_dquote_bs_lit _ _ hd, shlexLoop_dquote_bs_lit _ hd]
                have ha := shlex__string_append_spec s 92 hinv
                have hb := shlex__string_append_spec _ d ha.2.2.1
                have := ih rest2 34 (shlex__string_append (shlex__string_append s 92) d) hr2
                  (Or.inr (Or.inr rfl)) hb.2.2.1
                refine ⟨?_, this.2.1, this.2.2.1, ?_, ?_, ?_⟩
                · rw [this.1, hb.1, ha.1]; simp
                · rw [this.2.2.2.1, hb.2.1, ha.2.1]; simp; omega
                · rw [this.2.2.2.2.1, hb.2.2.2.1, ha.2.2.2.1]
                · rw [this.2.2.2.2.2, hb.2.2.2.2, ha.2.2.2.2]
          · rw [shlexLoopS_dquote_lit _ _ hc hbs, shlexLoop_dquote_lit _ hc hbs]
            have ha := shlex__string_append_spec s c hinv
            have := ih rest 34 (shlex__string_append s c) hr (Or.inr (Or.inr rfl)) ha.2.2.1
            refine ⟨?_, this.2.1, this.2.2.1, ?_, ?_, ?_⟩
            · rw [this.1, ha.1]; simp
            · rw [this.2.2.2.1, ha.2.1]; simp; omega
            · rw [this.2.2.2.2.1, ha.2.2.2.1]
            · rw [this.2.2.2.2.2, ha.2.2.2.2]

/-! ## One full `shlex_next` call -/

theorem shlex_next_eoi (s : Shlex)
    (h : (s.source.drop s.point).dropWhile (fun c => isspace c) = []) :
    shlex_next s = (none, { s with point := s.source.length }) := by
  unfold shlex_next
  rw [if_pos h]

theorem shlex_next_some (s : Shlex)
    (hrem : (s.source.drop s.point).dropWhile (fun c => isspace c) ≠ []) :
    (shlex_next s).1
      = some (shlexLoop 0 ((s.source.drop s.point).dropWhile (fun c => isspace c))).1 ∧
    (shlex_next s).2.source = s.source ∧
    (shlex_next s).2.point
      = s.source.length
        - (shlexLoop 0 ((s.source.drop s.point).dropWhile (fun c => isspace c))).2.length ∧
    (shlex_next s).2.valid
      = (shlexLoop 0 ((s.source.drop s.point).dropWhile (fun c => isspace c))).1 ++ [0] ∧
    (shlex_next s).2.string_count ≤ (shlex_next s).2.string.length := by
  have hstep : shlex_next s
      = (let p := shlexLoopS 0 { s with string_count := 0 }
           ((s.source.drop s.point).dropWhile (fun c => isspace c))
         let s1 := shlex__string_append p.1 0
         let s2 := { s1 with point := s.source.length - p.2.length }
         (some (s2.string.take (s2.string_count - 1)), s2)) := by
    unfold shlex_next
    rw [if_neg hrem]
  have h0 : ({ s with string_count := 0 } : Shlex).string_count
      ≤ ({ s with string_count := 0 } : Shlex).string.length := by simp
  have hcl := shlexLoopS_spec
    ((s.source.drop s.point).dropWhile (fun c => isspace c)).length
    ((s.source.drop s.point).dropWhile (fun c => isspace c)) 0
    { s with string_count := 0 } le_rfl (Or.inl rfl) h0
  have hval0 : ({ s with string_count := 0 } : Shlex).valid = [] := by
    simp [Shlex.valid]
  rw [hval0] at hcl
  have ha := shlex__string_append_spec
    (shlexLoopS 0 { s with string_count := 0 }
      ((s.source.drop s.point).dropWhile (fun c => isspace c))).1 0 hcl.2.2.1
  have hcount : (shlex__string_append (shlexLoopS 0 { s with string_count := 0 }
      ((s.source.drop s.point).dropWhile (fun c => isspace c))).1 0).string_count
      = (shlexLoop 0 ((s.source.drop s.point).dropWhile (fun c => isspace c))).1.length + 1 := by
    rw [ha.2.1, hcl.2.2.2.1]
    simp
  have hvalid : (shlex__string_append (shlexLoopS 0 { s with string_count := 0 }
      ((s.source.drop s.point).dropWhile (fun c => isspace c))).1 0).valid
      = (shlexLoop 0 ((s.source.drop s.point).dropWhile (fun c => isspace c))).1 ++ [0] := by
    rw [ha.1, hcl.1]
    simp
  have htok : (shlex__string_append (shlexLoopS 0 { s with string_count := 0 }
      ((s.source.drop s.point).dropWhile (fun c => isspace c))).1 0).string.take
      ((shlex__string_append (shlexLoopS 0 { s with string_count := 0 }
        ((s.source.drop s.point).dropWhile (fun c => isspace c))).1 0).string_count - 1)
      = (shlexLoop 0 ((s.source.drop s.point).dropWhile (fun c => isspace c))).1 := by
    unfold Shlex.valid at hvalid
    rw [hcount] at hvalid ⊢
    simp only [Nat.add_sub_cancel]
    calc (shlex__string_append (shlexLoopS 0 { s with string_count := 0 }
          ((s.source.drop s.point).dropWhile (fun c => isspace c))).1 0).string.take
          (shlexLoop 0 ((s.source.drop s.point).dropWhile (fun c => isspace c))).1.length
        = ((shlex__string_append (shlexLoopS 0 { s with string_count := 0 }
          ((s.source.drop s.point).dropWhile (fun c => isspace c))).1 0).string.take
          ((shlexLoop 0 ((s.source.drop s.point).dropWhile (fun c => isspace c))).1.length + 1)).take
          (shlexLoop 0 ((s.source.drop s.point).dropWhile (fun c => isspace c))).1.length := by
          rw [List.take_take]
          congr 1
          omega
      _ = _ := by
          rw [hvalid]
          exact List.take_left _ _
  rw [hstep]
  refine ⟨?_, ?_, ?_, ?_, ?_⟩
  · exact congrArg some htok
  · exact ha.2.2.2.1.trans hcl.2.2.2.2.1
  · exact congrArg (fun t => s.source.length - List.length t) hcl.2.1
  · exact hvalid
  · exact ha.2.2.1

/-- The stateful `shlex_next` returns exactly the token computed by the pure
`shlexNextTok` on the bytes at and after the cursor (and `none` exactly when the
pure form reports end-of-input). -/
theorem shlex_next_models (s : Shlex) :
    (shlex_next s).1 = Option.map Prod.fst (shlexNextTok (s.source.drop s.point)) := by
  by_cases hrem : (s.source.drop s.point).dropWhile (fun c => isspace c) = []
  · rw [shlex_next_eoi s hrem]
    unfold shlexNextTok
    rw [if_pos hrem]
    rfl
  · rw [(shlex_next_some s hrem).1]
    unfold shlexNextTok
    rw [if_neg hrem]
    rfl

/-! ## The claims -/

/-- C1: Round trip.  For every finite sequence S of byte strings, appending each
with `shlex_append_quoted_sized` starting from the zeroed structure, finalizing
with `shlex_join`, and splitting the returned joined C string (its bytes before
the NUL terminator) yields back exactly S, token for token — including empty
strings and strings containing spaces, quotes, backslashes or other
metacharacters. -/
theorem c1_roundtrip (S : List (List Nat)) :
    shlexSplit ((shlex_join (S.foldl shlex_append_quoted_sized shlexZero)).1.dropLast) = S := by
  have hz : shlexZero.string_count = shlexZero.string.length := rfl
  have hf := foldl_append_quoted_exact S shlexZero hz
  have hstr : (S.foldl shlex_append_quoted_sized shlexZero).string = shlexJoinList S := by
    rw [hf.1]
    simp [shlexZero]
  have hj : (shlex_join (S.foldl shlex_append_quoted_sized shlexZero)).1
      = (S.foldl shlex_append_quoted_sized shlexZero).string ++ [0] :=
    (shlex__string_append_exact _ 0 hf.2).1
  rw [hj, hstr, List.dropLast_concat, shlexSplit_joinList]

/-- C2 counterexample: the byte 0 (NUL) is neither alphanumeric nor one of the
ten safe-punctuation characters, so the claim requires the one-byte string
consisting of NUL to be wrapped in single quotes; but `strchr` finds NUL at the
terminator of the safe-punctuation literal, so `shlex__contains_unsafe_char` reports
false and `shlex_append_quoted_sized` appends the byte verbatim, unquoted. -/
theorem c2_counterexample :
    (shlex_append_quoted_sized shlexZero [0]).valid = [0] ∧
    isalnum 0 = false ∧ shlexSafeChars.contains 0 = false ∧
    ([0] : List Nat) ≠ [39, 0, 39] := by
  decide

/-- C2 (amended): a string passed to `shlex_append_quoted_sized` is wrapped in
single quotes (each embedded single quote expanded per `shlexExpand`) iff it is
empty or some byte is neither alphanumeric, nor one of the safe-punctuation
characters, nor the NUL byte (which `strchr` finds at the literal's terminator);
otherwise the bytes are appended verbatim; the empty string is appended as the
two bytes of an empty single-quote pair. -/
theorem c2_unsafe_test (s : Shlex) (str : List Nat) (h : s.string_count ≤ s.string.length) :
    (shlex_append_quoted_sized s str).valid
      = s.valid ++ (if s.string_count = 0 then [] else [32]) ++ shlexQuoteOne str ∧
    shlexQuoteOne str
      = (if str = [] then [39, 39]
         else if str.any (fun c => !isalnum c && !shlexSafeChars.contains c && !(c == 0)) then
           39 :: (shlexExpand str ++ [39])
         else str) := by
  refine ⟨(shlex_append_quoted_sized_valid s str h).1, ?_⟩
  have hpred : shlex__contains_unsafe_char str
      = str.any (fun c => !isalnum c && !shlexSafeChars.contains c && !(c == 0)) := by
    unfold shlex__contains_unsafe_char strchrSafe
    congr 1
    funext c
    simp [Bool.and_assoc]
  unfold shlexQuoteOne
  rw [hpred]
  simp [List.length_eq_zero]

/-- Witness for C2 (amended) at the zeroed structure and the two-byte string
quote-a, whose hypothesis holds by computation. -/
theorem c2_unsafe_test_witness :
    shlexZero.string_count ≤ shlexZero.string.length ∧
    ((shlex_append_quoted_sized shlexZero [39, 97]).valid
      = shlexZero.valid ++ (if shlexZero.string_count = 0 then [] else [32])
        ++ shlexQuoteOne [39, 97] ∧
     shlexQuoteOne [39, 97]
      = (if ([39, 97] : List Nat) = [] then [39, 39]
         else if ([39, 97] : List Nat).any
             (fun c => !isalnum c && !shlexSafeChars.contains c && !(c == 0)) then
           39 :: (shlexExpand [39, 97] ++ [39])
         else [39, 97])) :=
  ⟨by decide, c2_unsafe_test shlexZero [39, 97] (by decide)⟩

/-- C3: escape fidelity inside double quotes.  A backslash before one of the five
characters dollar, backquote, backslash, newline, double quote emits only the
escaped character; a backslash before any other character emits both bytes
literally; and splitting the double-quoted input listing all five escapes yields
the single token of exactly those five characters with no backslash left,
followed by end-of-input. -/
theorem c3_escape_table (d e : Nat) (r1 r2 : List Nat)
    (hd : d = 36 ∨ d = 96 ∨ d = 92 ∨ d = 10 ∨ d = 34)
    (he : ¬(e = 36 ∨ e = 96 ∨ e = 92 ∨ e = 10 ∨ e = 34)) :
    shlexLoop 34 (92 :: d :: r1) = (d :: (shlexLoop 34 r1).1, (shlexLoop 34 r1).2) ∧
    shlexLoop 34 (92 :: e :: r2) = (92 :: e :: (shlexLoop 34 r2).1, (shlexLoop 34 r2).2) ∧
    shlexSplit [34, 92, 36, 92, 96, 92, 92, 92, 10, 92, 34, 34] = [[36, 96, 92, 10, 34]] :=
  ⟨shlexLoop_dquote_bs_esc r1 hd, shlexLoop_dquote_bs_lit r2 he, by decide⟩

/-- Witness for C3 at the escaped character dollar (36) and the unescaped
character a (97). -/
theorem c3_escape_table_witness :
    ((36 : Nat) = 36 ∨ (36 : Nat) = 96 ∨ (36 : Nat) = 92 ∨ (36 : Nat) = 10 ∨ (36 : Nat) = 34) ∧
    ¬((97 : Nat) = 36 ∨ (97 : Nat) = 96 ∨ (97 : Nat) = 92 ∨ (97 : Nat) = 10 ∨ (97 : Nat) = 34) ∧
    (shlexLoop 34 [92, 36] = (36 :: (shlexLoop 34 []).1, (shlexLoop 34 []).2) ∧
     shlexLoop 34 [92, 97] = (92 :: 97 :: (shlexLoop 34 []).1, (shlexLoop 34 []).2) ∧
     shlexSplit [34, 92, 36, 92, 96, 92, 92, 92, 10, 92, 34, 34] = [[36, 96, 92, 10, 34]]) :=
  ⟨by decide, by decide, c3_escape_table 36 97 [] [] (by decide) (by decide)⟩

/-- C4 counterexample: splitting the four bytes double-quote backslash newline
double-quote yields the one-byte token newline — the newline DOES appear in the
returned token, contradicting the claim that the pair is dropped to nothing. -/
theorem c4_counterexample :
    shlexSplit [34, 92, 10, 34] = [[10]] ∧ (10 ∈ ([10] : List Nat)) := by
  refine ⟨by decide, by decide⟩

/-- C4 (amended): a backslash immediately followed by a newline inside a
double-quoted region drops the backslash and emits the newline literally: the
pair contributes exactly one newline byte to the token. -/
theorem c4_line_continuation (r : List Nat) :
    shlexLoop 34 (92 :: 10 :: r) = (10 :: (shlexLoop 34 r).1, (shlexLoop 34 r).2) ∧
    shlexSplit [34, 92, 10, 34] = [[10]] :=
  ⟨shlexLoop_dquote_bs_esc r (by decide), by decide⟩

/-- C5: a double-quoted region ending because the source range is exhausted
right after a backslash emits that backslash literally as the last content byte
and finalizes the token immediately (pure and stateful loop forms), and the full
`shlex_next` call on such an input returns the one-byte backslash token with its
terminator appended — not the end-of-input signal. -/
theorem c5_trailing_backslash_dquote (s : Shlex) :
    shlexLoop 34 [92] = ([92], []) ∧
    shlexLoopS 34 s [92] = (shlex__string_append s 92, []) ∧
    shlex_next ⟨[34, 92], 0, [], 0, 0⟩ = (some [92], ⟨[34, 92], 2, [92, 0], 2, 256⟩) :=
  ⟨shlexLoop_dquote_bs_end, shlexLoopS_dquote_bs_end s, by decide⟩

theorem shlexLoop_single_unterminated :
    ∀ (rem : List Nat), 39 ∉ rem → shlexLoop 39 rem = (rem, []) := by
  intro rem
  induction rem with
  | nil => intro _; simp [shlexLoop_nil]
  | cons c t ih =>
    intro h
    have hc : c ≠ 39 := fun e => h (by simp [e])
    rw [shlexLoop_single_lit t hc, ih (fun e => h (by simp [e]))]

theorem shlexLoop_dquote_unterminated :
    ∀ (n : Nat) (rem : List Nat), rem.length ≤ n → 34 ∉ rem →
      (shlexLoop 34 rem).2 = [] := by
  intro n
  induction n with
  | zero =>
    intro rem h _
    have : rem = [] := List.length_eq_zero.mp (Nat.le_zero.mp h)
    subst this; simp [shlexLoop_nil]
  | succ n ih =>
    intro rem h hm
    cases rem with
    | nil => simp [shlexLoop_nil]
    | cons c rest =>
      simp only [List.length_cons] at h
      have hc : c ≠ 34 := fun e => hm (by simp [e])
      by_cases hbs : c = 92
      · subst hbs
        cases rest with
        | nil => simp [shlexLoop_dquote_bs_end]
        | cons d rest2 =>
          have hm2 : 34 ∉ rest2 := fun e => hm (by simp [e])
          have hr2 : rest2.length ≤ n := by simp at h ⊢; omega
          by_cases hd : d = 36 ∨ d = 96 ∨ d = 92 ∨ d = 10 ∨ d = 34
          · rw [shlexLoop_dquote_bs_esc _ hd]
            exact ih rest2 hr2 hm2
          · rw [shlexLoop_dquote_bs_lit _ hd]
            exact ih rest2 hr2 hm2
      · rw [shlexLoop_dquote_lit _ hc hbs]
        exact ih rest (by omega) (fun e => hm (by simp [e]))

/-- C6: unterminated-quote tolerance.  A single-quoted region that reaches the
end of the range without a closing quote passes all its bytes through literally
and ends the scan with nothing left; a double-quoted region without a closing
quote likewise consumes the whole range, so the accumulated content is finalized
as a normal token and no error exists; in particular, splitting the four bytes
double-quote a b c yields exactly the token a b c and the next call reports
end-of-input. -/
theorem c6_unterminated_quote (rem1 rem2 : List Nat)
    (h1 : 39 ∉ rem1) (h2 : 34 ∉ rem2) :
    shlexLoop 39 rem1 = (rem1, []) ∧
    (shlexLoop 34 rem2).2 = [] ∧
    shlexNextTok [34, 97, 98, 99] = some ([97, 98, 99], []) ∧
    shlexNextTok [] = none ∧
    shlexSplit [34, 97, 98, 99] = [[97, 98, 99]] :=
  ⟨shlexLoop_single_unterminated rem1 h1,
   shlexLoop_dquote_unterminated rem2.length rem2 le_rfl h2,
   by decide, by decide, by decide⟩

/-- Witness for C6 at the unterminated bodies a b c (single quotes) and a
(double quotes). -/
theorem c6_unterminated_quote_witness :
    (39 ∉ ([97, 98, 99] : List Nat)) ∧ (34 ∉ ([97] : List Nat)) ∧
    (shlexLoop 39 [97, 98, 99] = ([97, 98, 99], []) ∧
     (shlexLoop 34 [97]).2 = [] ∧
     shlexNextTok [34, 97, 98, 99] = some ([97, 98, 99], []) ∧
     shlexNextTok [] = none ∧
     shlexSplit [34, 97, 98, 99] = [[97, 98, 99]]) :=
  ⟨by decide, by decide, c6_unterminated_quote [97, 98, 99] [97] (by decide) (by decide)⟩

/-- C7: cursor bounds.  `shlex_init` places the cursor at index 0 of the attached
range, and from any state whose cursor is within the range, one `shlex_next`
call leaves the source unchanged, never moves the cursor backward, and never
moves it beyond the end of the range.  (The embedding reads bytes only by
destructuring the list of bytes strictly before the end of the range, so the
cursor is never dereferenced at the end.) -/
theorem c7_cursor_bounds (s s0 : Shlex) (src : List Nat) (h : s.point ≤ s.source.length) :
    (shlex_init s0 src).point = 0 ∧
    (shlex_init s0 src).source = src ∧
    (shlex_next s).2.source = s.source ∧
    s.point ≤ (shlex_next s).2.point ∧
    (shlex_next s).2.point ≤ s.source.length := by
  by_cases hrem : (s.source.drop s.point).dropWhile (fun c => isspace c) = []
  · rw [shlex_next_eoi s hrem]
    exact ⟨rfl, rfl, rfl, h, le_rfl⟩
  · have hs := shlex_next_some s hrem
    have hloop := shlexLoop_rest_le
      ((s.source.drop s.point).dropWhile (fun c => isspace c)).length
      ((s.source.drop s.point).dropWhile (fun c => isspace c)) 0 le_rfl (Or.inl rfl)
    have hlen1 : ((s.source.drop s.point).dropWhile (fun c => isspace c)).length
        ≤ (s.source.drop s.point).length := (List.dropWhile_suffix _).length_le
    have hlen2 : (s.source.drop s.point).length = s.source.length - s.point :=
      List.length_drop _ _
    refine ⟨rfl, rfl, hs.2.1, ?_, ?_⟩
    · rw [hs.2.2.1]; omega
    · rw [hs.2.2.1]; omega

/-- Witness for C7 at a one-byte source with the cursor at its start. -/
theorem c7_cursor_bounds_witness :
    (⟨[97], 0, [], 0, 0⟩ : Shlex).point ≤ (⟨[97], 0, [], 0, 0⟩ : Shlex).source.length ∧
    ((shlex_init shlexZero [98]).point = 0 ∧
     (shlex_init shlexZero [98]).source = [98] ∧
     (shlex_next ⟨[97], 0, [], 0, 0⟩).2.source = (⟨[97], 0, [], 0, 0⟩ : Shlex).source ∧
     (⟨[97], 0, [], 0, 0⟩ : Shlex).point ≤ (shlex_next ⟨[97], 0, [], 0, 0⟩).2.point ∧
     (shlex_next ⟨[97], 0, [], 0, 0⟩).2.point ≤ (⟨[97], 0, [], 0, 0⟩ : Shlex).source.length) :=
  ⟨by decide, c7_cursor_bounds ⟨[97], 0, [], 0, 0⟩ shlexZero [98] (by decide)⟩

/-- C8: end-of-input frame.  When the bytes at and after the cursor are all
whitespace (or there are none), `shlex_next` returns the end-of-input signal and
the resulting state differs from the input state only in the cursor, which is
advanced past the whitespace to the end of the range: the stored bytes, the
logical length and the capacity are untouched. -/
theorem c8_eoi_frame (s : Shlex) (h : ∀ c ∈ s.source.drop s.point, isspace c = true) :
    shlex_next s = (none, { s with point := s.source.length }) :=
  shlex_next_eoi s (List.dropWhile_eq_nil_iff.mpr h)

/-- Witness for C8 at a state with two whitespace bytes left and nonempty
storage. -/
theorem c8_eoi_frame_witness :
    (∀ c ∈ (⟨[32, 9], 0, [5], 1, 7⟩ : Shlex).source.drop
        (⟨[32, 9], 0, [5], 1, 7⟩ : Shlex).point, isspace c = true) ∧
    shlex_next ⟨[32, 9], 0, [5], 1, 7⟩
      = (none, { (⟨[32, 9], 0, [5], 1, 7⟩ : Shlex) with
          point := (⟨[32, 9], 0, [5], 1, 7⟩ : Shlex).source.length }) :=
  ⟨by decide, c8_eoi_frame ⟨[32, 9], 0, [5], 1, 7⟩ (by decide)⟩

/-- C9 counterexample: `shlex_join` on the zeroed structure changes the capacity
(from 0 to 256), because appending the terminator into a full buffer grows it —
the claim that the capacity is left unchanged fails. -/
theorem c9_counterexample :
    (shlex_join shlexZero).2.string_capacity ≠ shlexZero.string_capacity := by
  decide

/-- C9 (amended): `shlex_join` appends exactly one terminator byte after the
current content, resets the logical length to zero leaving the stored bytes
unchanged, returns the buffer start, and leaves the capacity unchanged except
when the buffer is exactly full, in which case appending the terminator grows it
(to 256 from 0, else doubling); the source range and cursor are untouched, and a
subsequent `shlex_append_quoted_sized` begins a fresh joined string with no
leading separator. -/
theorem c9_join_finalizer (s : Shlex) (str : List Nat) (h : s.string_count ≤ s.string.length) :
    (shlex_join s).2.string_count = 0 ∧
    (shlex_join s).2.string.take (s.string_count + 1) = s.valid ++ [0] ∧
    (shlex_join s).1 = (shlex_join s).2.string ∧
    (shlex_join s).2.string_capacity
      = (if s.string_count < s.string_capacity then s.string_capacity
         else if s.string_capacity = 0 then 256 else s.string_capacity * 2) ∧
    (shlex_join s).2.source = s.source ∧
    (shlex_join s).2.point = s.point ∧
    (shlex_append_quoted_sized (shlex_join s).2 str).valid = shlexQuoteOne str := by
  have ha := shlex__string_append_spec s 0 h
  refine ⟨rfl, ?_, rfl, ?_, ha.2.2.2.1, ha.2.2.2.2, ?_⟩
  · have hv := ha.1
    unfold Shlex.valid at hv
    rw [ha.2.1] at hv
    exact hv
  · show (shlex__string_append s 0).string_capacity
        = (if s.string_count < s.string_capacity then s.string_capacity
           else if s.string_capacity = 0 then 256 else s.string_capacity * 2)
    unfold shlex__string_append
    by_cases hc : s.string_capacity ≤ s.string_count
    · rw [if_pos hc, if_neg (by omega : ¬s.string_count < s.string_capacity)]
    · rw [if_neg hc, if_pos (by omega : s.string_count < s.string_capacity)]
  · have hv := shlex_append_quoted_sized_valid (shlex_join s).2 str (Nat.zero_le _)
    rw [hv.1]
    have hz : (shlex_join s).2.string_count = 0 := rfl
    unfold Shlex.valid
    rw [hz]
    simp

/-- Witness for C9 (amended) at a state with one stored byte and spare capacity,
appending the one-byte string a afterwards. -/
theorem c9_join_finalizer_witness :
    (⟨[], 0, [7], 1, 4⟩ : Shlex).string_count ≤ (⟨[], 0, [7], 1, 4⟩ : Shlex).string.length ∧
    ((shlex_join ⟨[], 0, [7], 1, 4⟩).2.string_count = 0 ∧
     (shlex_join ⟨[], 0, [7], 1, 4⟩).2.string.take
        ((⟨[], 0, [7], 1, 4⟩ : Shlex).string_count + 1)
       = (⟨[], 0, [7], 1, 4⟩ : Shlex).valid ++ [0] ∧
     (shlex_join ⟨[], 0, [7], 1, 4⟩).1 = (shlex_join ⟨[], 0, [7], 1, 4⟩).2.string ∧
     (shlex_join ⟨[], 0, [7], 1, 4⟩).2.string_capacity
       = (if (⟨[], 0, [7], 1, 4⟩ : Shlex).string_count
             < (⟨[], 0, [7], 1, 4⟩ : Shlex).string_capacity then
            (⟨[], 0, [7], 1, 4⟩ : Shlex).string_capacity
          else if (⟨[], 0, [7], 1, 4⟩ : Shlex).string_capacity = 0 then 256
          else (⟨[], 0, [7], 1, 4⟩ : Shlex).string_capacity * 2) ∧
     (shlex_join ⟨[], 0, [7], 1, 4⟩).2.source = (⟨[], 0, [7], 1, 4⟩ : Shlex).source ∧
     (shlex_join ⟨[], 0, [7], 1, 4⟩).2.point = (⟨[], 0, [7], 1, 4⟩ : Shlex).point ∧
     (shlex_append_quoted_sized (shlex_join ⟨[], 0, [7], 1, 4⟩).2 [97]).valid
       = shlexQuoteOne [97]) :=
  ⟨by decide, c9_join_finalizer ⟨[], 0, [7], 1, 4⟩ [97] (by decide)⟩

theorem dropWhile_all_append_single {p : Nat → Bool} {x : Nat} (hx : p x = false) :
    ∀ (ws : List Nat), (∀ c ∈ ws, p c = true) → (ws ++ [x]).dropWhile p = [x] := by
  intro ws
  induction ws with
  | nil => intro _; simp [List.dropWhile_cons_of_neg, hx]
  | cons c t ih =>
    intro h
    simp only [List.cons_append]
    rw [List.dropWhile_cons_of_pos (h c (by simp))]
    exact ih fun d hd => h d (by simp [hd])

/-- C10 (implicit): a lone unquoted backslash at the end of the range is dropped
but still counts as a started token, so `shlex_next` returns a zero-length token
rather than end-of-input; only the following call reports end-of-input, and such
empty tokens arise without any empty-quote pair in the input. -/
theorem c10_trailing_backslash_empty_token (ws : List Nat)
    (h : ∀ c ∈ ws, isspace c = true) :
    shlexLoop 0 [92] = ([], []) ∧
    shlexNextTok (ws ++ [92]) = some ([], []) ∧
    shlexSplit (ws ++ [92]) = [[]] ∧
    shlexSplit [102, 111, 111, 32, 92] = [[102, 111, 111], []] := by
  have hdw : (ws ++ [92]).dropWhile (fun c => isspace c) = [92] :=
    dropWhile_all_append_single (by decide) ws h
  have hnt : shlexNextTok (ws ++ [92]) = some ([], []) := by
    unfold shlexNextTok
    rw [hdw, if_neg (by simp), shlexLoop_unq_bs_end]
  refine ⟨shlexLoop_unq_bs_end, hnt, ?_, by decide⟩
  rw [shlexSplit_eq_cons hnt, shlexSplit_eq_nil (by decide)]

/-- Witness for C10 at the input space backslash. -/
theorem c10_trailing_backslash_empty_token_witness :
    (∀ c ∈ ([32] : List Nat), isspace c = true) ∧
    (shlexLoop 0 [92] = ([], []) ∧
     shlexNextTok ([32] ++ [92]) = some ([], []) ∧
     shlexSplit ([32] ++ [92]) = [[]] ∧
     shlexSplit [102, 111, 111, 32, 92] = [[102, 111, 111], []]) :=
  ⟨by decide, c10_trailing_backslash_empty_token [32] (by decide)⟩
